import Mathlib

/-
  Verification of the dataflow-analysis core (liveness, phi requirement,
  OSR entry descriptors) and of the tuple runtime operations of this
  repository.

  The tuple operations are embedded directly from src/src/runtime/tuple.cpp.
  The dataflow analyses are known in the repository only through their unit
  test (src/test/unittests/analysis.cpp); their implementation
  (analysis/function_analysis.cpp, codegen/osrentry.h) is not part of the
  source tree, so those components are modelled from the specification.
-/

set_option maxHeartbeats 1000000
set_option maxRecDepth 10000

namespace Pyston

/-! ## Generic finite fixed-point machinery

A dataflow state assigns a finite set of facts (over a finite fact type `τ`)
to each of the `nb` blocks.  All analyses below iterate a monotone step
function from the empty state; on this finite lattice the iteration reaches
a fixed point within `nb * |τ|` steps. -/

abbrev St (nb : ℕ) (τ : Type) := Fin nb → Finset τ

/-- The initial state of every fixed-point iteration: all sets empty. -/
def botSt {nb : ℕ} {τ : Type} : St nb τ := fun _ => ∅

/-- Pointwise inclusion of dataflow states. -/
def stLe {nb : ℕ} {τ : Type} (s t : St nb τ) : Prop := ∀ b, s b ⊆ t b

/-- Total number of facts held in a state, the termination measure. -/
def stMeasure {nb : ℕ} {τ : Type} (s : St nb τ) : ℕ :=
  Finset.univ.sum fun b => (s b).card

/-- Run a dataflow step function to its fixed point: `nb * |τ|` rounds
from the empty state suffice (the loop "repeat until no set changes"
stabilizes within that many rounds, and further rounds do not move). -/
def fixIter {nb : ℕ} {τ : Type} [Fintype τ] (f : St nb τ → St nb τ) : St nb τ :=
  f^[nb * Fintype.card τ] botSt

/-! ## Control-flow graph and liveness analysis -/

/-- Modelled from the spec: the Basic-Block Graph of analysis/function_analysis.cpp
and core/cfg.h, which are not in the source tree.  Blocks are indexed by
`Fin nb`, virtual registers by `Fin nr`.  Per block we keep the local
`use` set (registers read before any local write), the `defs` set
(registers written anywhere in the block) and the successor edges;
predecessor edges are derived from the successors. -/
structure CFG (nb nr : ℕ) where
  entry : Fin nb
  use : Fin nb → Finset (Fin nr)
  defs : Fin nb → Finset (Fin nr)
  succ : Fin nb → Finset (Fin nb)

/-- Natural (control-flow) predecessors of a block, derived from the
successor edges. -/
def natPreds {nb nr : ℕ} (g : CFG nb nr) (b : Fin nb) : Finset (Fin nb) :=
  Finset.univ.filter fun p => b ∈ g.succ p

/-- Modelled from the spec: the liveness dataflow equation
`live-in = use ∪ (live-out − def)` applied to a candidate live-out state. -/
def liveInOf {nb nr : ℕ} (g : CFG nb nr) (lo : St nb (Fin nr)) (b : Fin nb) :
    Finset (Fin nr) :=
  g.use b ∪ (lo b \ g.defs b)

/-- Modelled from the spec: one round of the backward liveness iteration of
computeLivenessInfo (not in the source tree):
`live-out = union of live-in of all successors`. -/
def stepLive {nb nr : ℕ} (g : CFG nb nr) (lo : St nb (Fin nr)) : St nb (Fin nr) :=
  fun b => (g.succ b).biUnion fun s => liveInOf g lo s

/-- Modelled from the spec: the final live-out sets of the LivenessAnalysis
result, obtained by iterating the backward dataflow step from the empty
state until the fixed point. -/
def liveOut {nb nr : ℕ} (g : CFG nb nr) : St nb (Fin nr) :=
  fixIter (stepLive g)

/-- Modelled from the spec: the final live-in sets of the LivenessAnalysis
result. -/
def liveIn {nb nr : ℕ} (g : CFG nb nr) (b : Fin nb) : Finset (Fin nr) :=
  liveInOf g (liveOut g) b

/-! ## OSR entry descriptors and phi requirement analysis -/

/-- Modelled from the spec: the OSREntryDescriptor of codegen/osrentry.h
(not in the source tree).  It names the target block of the on-stack
replacement entry, the set of registers whose value the interpreter
supplies at that entry (the `args` keys of the test), and the subset of
those that are declared potentially undefined (`potentially_undefined`);
supplied registers outside that subset are declared always-defined. -/
structure OSREntryDescriptor (nb nr : ℕ) where
  target : Fin nb
  supplied : Finset (Fin nr)
  declaredUndef : Finset (Fin nr)

/-- The registers an OSR entry descriptor declares as definitely defined:
supplied and not flagged potentially undefined. -/
def alwaysDefined {nb nr : ℕ} (d : OSREntryDescriptor nb nr) : Finset (Fin nr) :=
  d.supplied \ d.declaredUndef

/-- Modelled from the spec: contribution of the natural control flow to the
potentially-undefined-at-entry set of one block, given a candidate state
`u`: everything is potentially undefined at the function entry, and a
register is potentially undefined at a block entry when some natural
predecessor has it potentially undefined at its own entry and does not
redefine it. -/
def undefBase {nb nr : ℕ} (g : CFG nb nr) (u : St nb (Fin nr)) (b : Fin nb) :
    Finset (Fin nr) :=
  (if b = g.entry then (Finset.univ : Finset (Fin nr)) else ∅) ∪
    (natPreds g b).biUnion fun p => u p \ g.defs p

/-- Modelled from the spec: one round of the forward potential-undefinedness
iteration of the PhiAnalysis (not in the source tree).  In OSR mode the
target block has one additional synthetic predecessor whose reaching state
is exactly the descriptor's flags: its declared potentially-undefined
registers are added, and its always-defined declarations override the
natural paths for this analysis run. -/
def undefStep {nb nr : ℕ} (g : CFG nb nr) (osr : Option (OSREntryDescriptor nb nr))
    (u : St nb (Fin nr)) : St nb (Fin nr) :=
  fun b =>
    match osr with
    | none => undefBase g u b
    | some d =>
        if b = d.target then (undefBase g u b ∪ d.declaredUndef) \ alwaysDefined d
        else undefBase g u b

/-- Modelled from the spec: the final potentially-undefined-at-entry sets of
the PhiAnalysis result (isPotentiallyUndefinedAt). -/
def undefAtEntry {nb nr : ℕ} (g : CFG nb nr) (osr : Option (OSREntryDescriptor nb nr)) :
    St nb (Fin nr) :=
  fixIter (undefStep g osr)

/-- Modelled from the spec: potentially-undefined after a block
(isPotentiallyUndefinedAfter): potentially undefined at its entry and not
redefined inside the block. -/
def undefAfter {nb nr : ℕ} (g : CFG nb nr) (osr : Option (OSREntryDescriptor nb nr))
    (b : Fin nb) : Finset (Fin nr) :=
  undefAtEntry g osr b \ g.defs b

/-- A reaching definition site for a register: `some p` is a static
definition inside block `p`; `none` is the synthetic OSR entry supply. -/
abbrev SiteTag (nb : ℕ) := Option (Fin nb)

/-- Modelled from the spec: the definition sites injected by the synthetic
OSR predecessor edge at the descriptor's target block: every supplied
register reaches with the distinct OSR supply site. -/
def osrSeed {nb nr : ℕ} (osr : Option (OSREntryDescriptor nb nr)) (b : Fin nb) :
    Finset (Fin nr × SiteTag nb) :=
  match osr with
  | none => ∅
  | some d =>
      if b = d.target then d.supplied.image fun r => (r, (none : SiteTag nb))
      else ∅

/-- Modelled from the spec: one round of the reaching-definition-site
iteration that underlies the phi rule of the PhiAnalysis (not in the
source tree).  A site `(r, some p)` reaches a block entry when some
natural predecessor `p` defines `r`, or when a predecessor lets an
already-reaching site of `r` pass through without redefining `r`. -/
def sitesStep {nb nr : ℕ} (g : CFG nb nr) (osr : Option (OSREntryDescriptor nb nr))
    (u : St nb (Fin nr × SiteTag nb)) : St nb (Fin nr × SiteTag nb) :=
  fun b =>
    osrSeed osr b ∪
      (natPreds g b).biUnion fun p =>
        ((g.defs p).image fun r => (r, (some p : SiteTag nb))) ∪
          (u p).filter fun x => x.1 ∉ g.defs p

/-- Modelled from the spec: the fixed point of the reaching-site iteration. -/
def sitesAtEntry {nb nr : ℕ} (g : CFG nb nr) (osr : Option (OSREntryDescriptor nb nr)) :
    St nb (Fin nr × SiteTag nb) :=
  fixIter (sitesStep g osr)

/-- Number of distinct definition sites of register `r` reaching the entry
of block `b`. -/
def siteCount {nb nr : ℕ} (g : CFG nb nr) (osr : Option (OSREntryDescriptor nb nr))
    (b : Fin nb) (r : Fin nr) : ℕ :=
  ((sitesAtEntry g osr b).filter fun x => x.1 = r).card

/-- Modelled from the spec: number of effective predecessors of a block:
its natural predecessors, plus the synthetic OSR entry edge when the block
is the descriptor's target. -/
def epredsCard {nb nr : ℕ} (g : CFG nb nr) (osr : Option (OSREntryDescriptor nb nr))
    (b : Fin nb) : ℕ :=
  (natPreds g b).card +
    (match osr with
     | none => 0
     | some d => if b = d.target then 1 else 0)

/-- Modelled from the spec: the phi requirement rule of computeRequiredPhis
(not in the source tree).  A register needs a phi at a block when the
block has at least two effective predecessors, the register is live at the
block's entry, and either two different definition sites reach the entry,
or one does while the register is also potentially undefined there. -/
def phiRequired {nb nr : ℕ} (g : CFG nb nr) (osr : Option (OSREntryDescriptor nb nr))
    (b : Fin nb) : Finset (Fin nr) :=
  (liveIn g b).filter fun r =>
    2 ≤ epredsCard g osr b ∧
      (2 ≤ siteCount g osr b r ∨
        (1 ≤ siteCount g osr b r ∧ r ∈ undefAtEntry g osr b))

/-! ## A concrete loop-with-OSR scenario

Block 0 is the function entry (the forward predecessor of the loop
header), block 1 the loop header and OSR target, block 2 the loop body
ending in the back edge, block 3 the code after the loop.  Register 0 is
the loop variable `i` (defined only inside the loop body), register 1 is
the iterator `iter` (defined before the loop and advanced inside it). -/

def loopCFG : CFG 4 2 where
  entry := 0
  use := fun b => if b = 1 then {0, 1} else if b = 2 then {0, 1} else
    if b = 3 then {0} else ∅
  defs := fun b => if b = 0 then {1} else if b = 2 then {0, 1} else ∅
  succ := fun b => if b = 0 then {1} else if b = 1 then {2, 3} else
    if b = 2 then {1} else ∅

/-- OSR descriptor for the loop header: `i` supplied and declared defined;
`iter` not mentioned. -/
def loopDesc : OSREntryDescriptor 4 2 where
  target := 1
  supplied := {0}
  declaredUndef := ∅

/-- OSR descriptor for the loop header that declares no always-defined
facts: `i` supplied but flagged potentially undefined. -/
def loopDescU : OSREntryDescriptor 4 2 where
  target := 1
  supplied := {0}
  declaredUndef := {0}

/-! ## Tuple runtime operations (from src/src/runtime/tuple.cpp)

A boxed tuple is its element list; other boxed values are classified only
as far as the tuple operations inspect them: a boxed integer with its
value, or some other object. -/

inductive PyVal (α : Type) where
  | int (n : ℤ)
  | tup (elts : List α)
  | other
deriving DecidableEq

/-- The index adjustment of tupleGetitemUnboxed (tuple.cpp lines 59-60):
a negative index is shifted by the tuple size. -/
def tupleAdjust (size : ℕ) (n : ℤ) : ℤ :=
  if n < 0 then (size : ℤ) + n else n

/-- tupleGetitemUnboxed (tuple.cpp lines 56-66): adjust a negative index by
the size, then either raise IndexError or return the element. -/
def tupleGetitemUnboxed {α : Type} (self : List α) (n : ℤ) : Except String α :=
  if h : 0 ≤ tupleAdjust self.length n ∧ tupleAdjust self.length n < (self.length : ℤ)
  then Except.ok (self.get ⟨(tupleAdjust self.length n).toNat, by omega⟩)
  else Except.error "tuple index out of range"

/-- Outcome of tupleMul: a TypeError, the very same tuple object, or a
freshly allocated tuple. -/
inductive MulResult (α : Type) where
  | typeError
  | same
  | fresh (elts : List α)
deriving DecidableEq

/-- The clamping `if (n < 0) n = 0;` of tupleMul (tuple.cpp line 179). -/
def clampNeg (n : ℤ) : ℤ := if n < 0 then 0 else n

/-- The narrowing `int n = static_cast<BoxedInt*>(rhs)->n;` of tupleMul
(tuple.cpp line 176): the int64 payload of the boxed int is truncated,
two's complement, to the signed 32-bit representative in [-2^31, 2^31). -/
def toInt32 (n : ℤ) : ℤ := (n + 2 ^ 31) % 2 ^ 32 - 2 ^ 31

/-- tupleMul (tuple.cpp lines 170-193): a non-int multiplier raises
TypeError; the boxed multiplier is narrowed to a 32-bit int (line 176)
and clamped at zero (line 179); an empty tuple or narrowed multiplier one
returns the tuple itself; otherwise the copy loop (lines 186-190) writes
that many copies of the elements into a fresh tuple.  (When the 32-bit
product `n * s` of line 185 overflows, the source under-allocates with
signed-overflow undefined behavior; the embedding represents the elements
the loop writes, and the theorem below restricts its length statement to
the non-overflowing domain.) -/
def tupleMul {α : Type} (self : List α) (rhs : PyVal α) : MulResult α :=
  match rhs with
  | PyVal.int n0 =>
      if self.length = 0 ∨ clampNeg (toInt32 n0) = 1 then MulResult.same
      else MulResult.fresh
        (List.flatten (List.replicate (clampNeg (toInt32 n0)).toNat self))
  | _ => MulResult.typeError

/-- The comparison operators dispatched to _tupleCmp (core/ast.h AST_TYPE
values Lt, LtE, Gt, GtE, Eq, NotEq). -/
inductive CmpOp where
  | lt | le | gt | ge | eq | ne
deriving DecidableEq

/-- The length comparison _tupleCmp falls back to after the element loop
(tuple.cpp lines 252-263). -/
def lenCmp (op : CmpOp) (l r : ℕ) : Bool :=
  match op with
  | CmpOp.lt => decide (l < r)
  | CmpOp.le => decide (l ≤ r)
  | CmpOp.gt => decide (r < l)
  | CmpOp.ge => decide (r ≤ l)
  | CmpOp.eq => decide (l = r)
  | CmpOp.ne => decide (¬l = r)

/-- The is_order classification of _tupleCmp (tuple.cpp lines 231-232). -/
def isOrderOp : CmpOp → Bool
  | CmpOp.lt | CmpOp.le | CmpOp.gt | CmpOp.ge => true
  | _ => false

/-- The answer _tupleCmp gives at the first pair of elements that do not
compare equal (tuple.cpp lines 242-249): Eq answers false, NotEq answers
true, an order operator answers the element-level comparison. -/
def cmpMismatch {α : Type} (cmpe : CmpOp → α → α → Bool) (op : CmpOp)
    (x y : α) : Bool :=
  match op with
  | CmpOp.eq => false
  | CmpOp.ne => true
  | o => cmpe o x y

/-- _tupleCmp (tuple.cpp lines 227-266).  Element equality tests
(`compareInternal` with Eq followed by `nonzero`) are abstracted by `beq`,
and the element-level result of an order comparison by `cmpe`.  The loop
walks matching positions: at the first inequality the operator decides via
`cmpMismatch`; when one side is exhausted the original lengths are
compared (having consumed equally many elements from both sides,
comparing the remaining lengths is the same as comparing the original
lengths). -/
def tupleCmpRun {α : Type} (beq : α → α → Bool) (cmpe : CmpOp → α → α → Bool)
    (op : CmpOp) : List α → List α → Bool
  | x :: xs, y :: ys =>
      if beq x y then tupleCmpRun beq cmpe op xs ys
      else cmpMismatch cmpe op x y
  | xs, ys => lenCmp op xs.length ys.length

/-- The common shape of the six comparison entry points (tuple.cpp lines
268-308): a non-tuple right operand yields NotImplemented (modelled as
`none`), a tuple is compared by _tupleCmp. -/
def tupleCmpBox {α : Type} (beq : α → α → Bool) (cmpe : CmpOp → α → α → Bool)
    (op : CmpOp) (self : List α) (rhs : PyVal α) : Option Bool :=
  match rhs with
  | PyVal.tup r => some (tupleCmpRun beq cmpe op self r)
  | _ => none

/-- tupleLt (tuple.cpp lines 268-273). -/
def tupleLt {α : Type} (beq : α → α → Bool) (cmpe : CmpOp → α → α → Bool)
    (self : List α) (rhs : PyVal α) : Option Bool :=
  tupleCmpBox beq cmpe CmpOp.lt self rhs

/-- tupleLe (tuple.cpp lines 275-280). -/
def tupleLe {α : Type} (beq : α → α → Bool) (cmpe : CmpOp → α → α → Bool)
    (self : List α) (rhs : PyVal α) : Option Bool :=
  tupleCmpBox beq cmpe CmpOp.le self rhs

/-- tupleGt (tuple.cpp lines 282-287). -/
def tupleGt {α : Type} (beq : α → α → Bool) (cmpe : CmpOp → α → α → Bool)
    (self : List α) (rhs : PyVal α) : Option Bool :=
  tupleCmpBox beq cmpe CmpOp.gt self rhs

/-- tupleGe (tuple.cpp lines 289-294). -/
def tupleGe {α : Type} (beq : α → α → Bool) (cmpe : CmpOp → α → α → Bool)
    (self : List α) (rhs : PyVal α) : Option Bool :=
  tupleCmpBox beq cmpe CmpOp.ge self rhs

/-- tupleEq (tuple.cpp lines 296-301). -/
def tupleEq {α : Type} (beq : α → α → Bool) (cmpe : CmpOp → α → α → Bool)
    (self : List α) (rhs : PyVal α) : Option Bool :=
  tupleCmpBox beq cmpe CmpOp.eq self rhs

/-- tupleNe (tuple.cpp lines 303-308). -/
def tupleNe {α : Type} (beq : α → α → Bool) (cmpe : CmpOp → α → α → Bool)
    (self : List α) (rhs : PyVal α) : Option Bool :=
  tupleCmpBox beq cmpe CmpOp.ne self rhs

/-- The first position where two tuples hold elements that do not compare
equal, following the spec wording for the lexicographic order: walk the
common prefix and report the first differing pair, if any. -/
def firstDiff {α : Type} (beq : α → α → Bool) : List α → List α → Option (α × α)
  | x :: xs, y :: ys => if beq x y then firstDiff beq xs ys else some (x, y)
  | _, _ => none

/-- Lexicographic comparison as the claim words it: decided by comparing
the first position where elements differ, falling back to comparing the
lengths when one tuple is a prefix of the other. -/
def specLexCmp {α : Type} (beq : α → α → Bool) (cmpe : CmpOp → α → α → Bool)
    (op : CmpOp) (lhs rhs : List α) : Bool :=
  match firstDiff beq lhs rhs with
  | some (x, y) => cmpe op x y
  | none => lenCmp op lhs.length rhs.length

/-! ## Fixed-point lemmas -/

theorem stLe_trans {nb : ℕ} {τ : Type} {s t u : St nb τ}
    (h1 : stLe s t) (h2 : stLe t u) : stLe s u :=
  fun b => Finset.Subset.trans (h1 b) (h2 b)

theorem botSt_le {nb : ℕ} {τ : Type} (s : St nb τ) : stLe botSt s :=
  fun _ x hx => absurd hx (Finset.not_mem_empty x)

theorem iterate_ascending {nb : ℕ} {τ : Type} (f : St nb τ → St nb τ)
    (hf : ∀ s t, stLe s t → stLe (f s) (f t)) (k : ℕ) :
    stLe (f^[k] botSt) (f^[k + 1] botSt) := by
  induction k with
  | zero => exact botSt_le _
  | succ k ih =>
      rw [Function.iterate_succ_apply' f k, Function.iterate_succ_apply' f (k + 1)]
      exact hf _ _ ih

theorem stMeasure_lt_of_lt {nb : ℕ} {τ : Type} {s t : St nb τ}
    (hle : stLe s t) (hne : s ≠ t) : stMeasure s < stMeasure t := by
  have hx : ∃ b, s b ≠ t b := by
    by_contra h
    push_neg at h
    exact hne (funext h)
  obtain ⟨b0, hb0⟩ := hx
  apply Finset.sum_lt_sum
  · intro i _
    exact Finset.card_le_card (hle i)
  · exact ⟨b0, Finset.mem_univ b0,
      Finset.card_lt_card ((hle b0).ssubset_of_ne hb0)⟩

theorem stMeasure_le_bound {nb : ℕ} {τ : Type} [Fintype τ] (s : St nb τ) :
    stMeasure s ≤ nb * Fintype.card τ := by
  have h1 : stMeasure s ≤ Finset.univ.sum fun _ : Fin nb => Fintype.card τ :=
    Finset.sum_le_sum fun i _ => Finset.card_le_univ (s i)
  have h2 : (Finset.univ.sum fun _ : Fin nb => Fintype.card τ) = nb * Fintype.card τ := by
    rw [Finset.sum_const, Finset.card_univ, Fintype.card_fin, smul_eq_mul]
  omega

theorem measure_growth {nb : ℕ} {τ : Type} (f : St nb τ → St nb τ)
    (hf : ∀ s t, stLe s t → stLe (f s) (f t)) (k : ℕ)
    (h : ∀ j, j < k → f^[j + 1] botSt ≠ f^[j] botSt) :
    k ≤ stMeasure (f^[k] (botSt : St nb τ)) := by
  induction k with
  | zero => exact Nat.zero_le _
  | succ k ih =>
      have h1 : k ≤ stMeasure (f^[k] (botSt : St nb τ)) :=
        ih fun j hj => h j (Nat.lt_succ_of_lt hj)
      have h2 : stMeasure (f^[k] (botSt : St nb τ)) < stMeasure (f^[k + 1] botSt) :=
        stMeasure_lt_of_lt (iterate_ascending f hf k) (Ne.symm (h k (Nat.lt_succ_self k)))
      omega

theorem exists_fixed_le {nb : ℕ} {τ : Type} [Fintype τ] (f : St nb τ → St nb τ)
    (hf : ∀ s t, stLe s t → stLe (f s) (f t)) :
    ∃ k, k ≤ nb * Fintype.card τ ∧ f (f^[k] botSt) = f^[k] botSt := by
  by_contra hcon
  push_neg at hcon
  have h : ∀ j, j < nb * Fintype.card τ + 1 → f^[j + 1] (botSt : St nb τ) ≠ f^[j] botSt := by
    intro j hj
    rw [Function.iterate_succ_apply' f j]
    exact hcon j (Nat.lt_succ_iff.mp hj)
  have hg := measure_growth f hf (nb * Fintype.card τ + 1) h
  have hb := stMeasure_le_bound (f^[nb * Fintype.card τ + 1] (botSt : St nb τ))
  omega

theorem fixIter_fixed {nb : ℕ} {τ : Type} [Fintype τ] (f : St nb τ → St nb τ)
    (hf : ∀ s t, stLe s t → stLe (f s) (f t)) :
    f (fixIter f) = fixIter f := by
  obtain ⟨k, hk, hfix⟩ := exists_fixed_le f hf
  have hstable : ∀ m, f^[m] (f^[k] (botSt : St nb τ)) = f^[k] botSt :=
    fun m => Function.iterate_fixed hfix m
  have heq : fixIter f = f^[k] (botSt : St nb τ) := by
    unfold fixIter
    have hdecomp : nb * Fintype.card τ = (nb * Fintype.card τ - k) + k := by omega
    rw [hdecomp, Function.iterate_add_apply]
    exact hstable _
  rw [heq]
  exact hfix

theorem fixIter_le_fixIter {nb : ℕ} {τ : Type} [Fintype τ]
    (f g : St nb τ → St nb τ)
    (hg : ∀ s t, stLe s t → stLe (g s) (g t))
    (hfg : ∀ s, stLe (f s) (g s)) :
    stLe (fixIter f) (fixIter g) := by
  unfold fixIter
  generalize nb * Fintype.card τ = N
  induction N with
  | zero => exact fun b => Finset.Subset.refl _
  | succ N ih =>
      rw [Function.iterate_succ_apply' f N, Function.iterate_succ_apply' g N]
      exact stLe_trans (hfg _) (hg _ _ ih)

/-! ## Monotonicity of the analysis step functions -/

theorem stepLive_mono {nb nr : ℕ} (g : CFG nb nr) :
    ∀ s t, stLe s t → stLe (stepLive g s) (stepLive g t) := by
  intro s t hst b x hx
  simp only [stepLive, Finset.mem_biUnion] at hx ⊢
  obtain ⟨c, hc, hxc⟩ := hx
  refine ⟨c, hc, ?_⟩
  simp only [liveInOf, Finset.mem_union, Finset.mem_sdiff] at hxc ⊢
  rcases hxc with h | ⟨h1, h2⟩
  · exact Or.inl h
  · exact Or.inr ⟨hst c h1, h2⟩

theorem undefBase_mono {nb nr : ℕ} (g : CFG nb nr) {s t : St nb (Fin nr)}
    (hst : stLe s t) (b : Fin nb) : undefBase g s b ⊆ undefBase g t b := by
  intro x hx
  simp only [undefBase, Finset.mem_union, Finset.mem_biUnion, Finset.mem_sdiff] at hx ⊢
  rcases hx with h | ⟨p, hp, h1, h2⟩
  · exact Or.inl h
  · exact Or.inr ⟨p, hp, hst p h1, h2⟩

theorem undefStep_mono {nb nr : ℕ} (g : CFG nb nr)
    (osr : Option (OSREntryDescriptor nb nr)) :
    ∀ s t, stLe s t → stLe (undefStep g osr s) (undefStep g osr t) := by
  intro s t hst b
  cases osr with
  | none => exact undefBase_mono g hst b
  | some d =>
      simp only [undefStep]
      by_cases hb : b = d.target
      · rw [if_pos hb, if_pos hb]
        intro x hx
        simp only [Finset.mem_sdiff, Finset.mem_union] at hx ⊢
        rcases hx with ⟨h1 | h1, h2⟩
        · exact ⟨Or.inl (undefBase_mono g hst b h1), h2⟩
        · exact ⟨Or.inr h1, h2⟩
      · rw [if_neg hb, if_neg hb]
        exact undefBase_mono g hst b

theorem sitesStep_mono {nb nr : ℕ} (g : CFG nb nr)
    (osr : Option (OSREntryDescriptor nb nr)) :
    ∀ s t, stLe s t → stLe (sitesStep g osr s) (sitesStep g osr t) := by
  intro s t hst b x hx
  simp only [sitesStep, Finset.mem_union, Finset.mem_biUnion, Finset.mem_image,
    Finset.mem_filter] at hx ⊢
  rcases hx with h | ⟨p, hp, h | ⟨h1, h2⟩⟩
  · exact Or.inl h
  · exact Or.inr ⟨p, hp, Or.inl h⟩
  · exact Or.inr ⟨p, hp, Or.inr ⟨hst p h1, h2⟩⟩

/-! ## Claim theorems: liveness -/

/-- Claim C1: for every control-flow graph, the final liveness result
satisfies, simultaneously for every block, the dataflow equations
live-in = use ∪ (live-out − def) and live-out = union of the live-in of
all successors. -/
theorem liveness_fixed_point_equations {nb nr : ℕ} (g : CFG nb nr) (b : Fin nb) :
    liveIn g b = g.use b ∪ (liveOut g b \ g.defs b) ∧
    liveOut g b = (g.succ b).biUnion fun s => liveIn g s := by
  constructor
  · rfl
  · have h := fixIter_fixed (stepLive g) (stepLive_mono g)
    exact (congrFun h b).symm

/-- Claim C7: the backward liveness fixed-point iteration ascends
monotonically from the empty state and reaches a fixed point (the loop
"repeat until no set changes" stops) within `nb * nr` rounds, a bound
proportional to graph size times register count. -/
theorem liveness_terminates {nb nr : ℕ} (g : CFG nb nr) :
    (∀ k, stLe ((stepLive g)^[k] botSt) ((stepLive g)^[k + 1] botSt)) ∧
    ∃ k, k ≤ nb * nr ∧ stepLive g ((stepLive g)^[k] botSt) = (stepLive g)^[k] botSt := by
  constructor
  · exact iterate_ascending (stepLive g) (stepLive_mono g)
  · obtain ⟨k, hk, hfix⟩ := exists_fixed_le (stepLive g) (stepLive_mono g)
    rw [Fintype.card_fin] at hk
    exact ⟨k, hk, hfix⟩

/-! ## Claim theorems: phi requirement analysis -/

/-- Claim C4: in both natural and OSR mode, a register that is not live at
a block's entry is never phi-required at that block. -/
theorem no_phantom_phis {nb nr : ℕ} (g : CFG nb nr)
    (osr : Option (OSREntryDescriptor nb nr)) (b : Fin nb) (r : Fin nr)
    (h : r ∉ liveIn g b) : r ∉ phiRequired g osr b :=
  fun hmem => h (Finset.mem_of_mem_filter r hmem)

theorem no_phantom_phis_witness :
    (1 : Fin 2) ∉ liveIn loopCFG 3 ∧ (1 : Fin 2) ∉ phiRequired loopCFG none 3 :=
  ⟨by decide, no_phantom_phis loopCFG none 3 1 (by decide)⟩

/-- Claim C5: a register live at the entry block of the whole function is
potentially undefined at the function entry and never phi-required there.
The graph is well formed (the entry block has no predecessors, as the
lowering stage guarantees) and a supplied OSR descriptor satisfies its
precondition of targeting a block other than the function entry. -/
theorem entry_live_in_undefined_no_phi {nb nr : ℕ} (g : CFG nb nr)
    (osr : Option (OSREntryDescriptor nb nr)) (r : Fin nr)
    (h1 : ∀ b, g.entry ∉ g.succ b)
    (h2 : ∀ d, osr = some d → d.target ≠ g.entry)
    (hr : r ∈ liveIn g g.entry) :
    r ∈ undefAtEntry g osr g.entry ∧ r ∉ phiRequired g osr g.entry := by
  constructor
  · have hfix : undefStep g osr (undefAtEntry g osr) = undefAtEntry g osr :=
      fixIter_fixed (undefStep g osr) (undefStep_mono g osr)
    rw [← congrFun hfix g.entry]
    have hbase : r ∈ undefBase g (undefAtEntry g osr) g.entry := by
      apply Finset.mem_union_left
      rw [if_pos rfl]
      exact Finset.mem_univ r
    cases osr with
    | none => exact hbase
    | some d =>
        simp only [undefStep]
        rw [if_neg (Ne.symm (h2 d rfl))]
        exact hbase
  · intro hmem
    have hcond := (Finset.mem_filter.mp hmem).2
    have hnp : natPreds g g.entry = ∅ :=
      Finset.filter_eq_empty_iff.mpr fun p _ => h1 p
    have hle : epredsCard g osr g.entry ≤ 1 := by
      cases osr with
      | none => simp [epredsCard, hnp]
      | some d =>
          simp only [epredsCard, hnp, Finset.card_empty]
          rw [if_neg (Ne.symm (h2 d rfl))]
          omega
    have h2c := hcond.1
    omega

theorem entry_live_in_witness :
    (0 : Fin 2) ∈ undefAtEntry loopCFG (some loopDesc) loopCFG.entry ∧
    (0 : Fin 2) ∉ phiRequired loopCFG (some loopDesc) loopCFG.entry :=
  entry_live_in_undefined_no_phi loopCFG (some loopDesc) 0 (by decide)
    (by intro d hd; injection hd with h; subst h; decide) (by decide)

/-- Claim C6: if a register is potentially undefined after block `b` and
block `b'` has `b` as its only effective predecessor (its only natural
predecessor, and it is not the OSR entry target) and `b'` does not define
the register, then the register is potentially undefined at the entry of
`b'`. -/
theorem undef_propagates {nb nr : ℕ} (g : CFG nb nr)
    (osr : Option (OSREntryDescriptor nb nr)) (b b' : Fin nb) (r : Fin nr)
    (hp : natPreds g b' = {b}) (ht : ∀ d, osr = some d → d.target ≠ b')
    (hu : r ∈ undefAfter g osr b) (hd : r ∉ g.defs b') :
    r ∈ undefAtEntry g osr b' := by
  have hfix : undefStep g osr (undefAtEntry g osr) = undefAtEntry g osr :=
    fixIter_fixed (undefStep g osr) (undefStep_mono g osr)
  rw [← congrFun hfix b']
  have hbase : r ∈ undefBase g (undefAtEntry g osr) b' := by
    apply Finset.mem_union_right
    rw [hp, Finset.singleton_biUnion]
    exact hu
  cases osr with
  | none => exact hbase
  | some d =>
      simp only [undefStep]
      rw [if_neg (Ne.symm (ht d rfl))]
      exact hbase

theorem undef_propagates_witness :
    (0 : Fin 2) ∈ undefAfter loopCFG none 1 ∧
    (0 : Fin 2) ∈ undefAtEntry loopCFG none 3 :=
  ⟨by decide,
   undef_propagates loopCFG none 1 3 0 (by decide) (fun d hd => nomatch hd)
     (by decide) (by decide)⟩

/-- Claim C2: for a descriptor that declares no extra always-defined facts,
the phi-required set computed at the target block in OSR mode contains the
one computed in natural mode; and a descriptor declaring more registers
always-defined (and fewer potentially undefined) never adds potential
undefinedness at any block, it can only remove it. -/
theorem osr_superset_and_defined_monotone {nb nr : ℕ} (g : CFG nb nr)
    (d d₁ d₂ : OSREntryDescriptor nb nr) :
    (d.supplied ⊆ d.declaredUndef →
      phiRequired g none d.target ⊆ phiRequired g (some d) d.target) ∧
    (d₂.target = d₁.target → d₂.declaredUndef ⊆ d₁.declaredUndef →
      alwaysDefined d₁ ⊆ alwaysDefined d₂ →
      ∀ b, undefAtEntry g (some d₂) b ⊆ undefAtEntry g (some d₁) b) := by
  constructor
  · intro hno
    have hAD : alwaysDefined d = ∅ := Finset.sdiff_eq_empty_iff_subset.mpr hno
    have hstep : ∀ s, stLe (undefStep g none s) (undefStep g (some d) s) := by
      intro s b
      simp only [undefStep]
      by_cases hb : b = d.target
      · rw [if_pos hb, hAD, Finset.sdiff_empty]
        exact fun x hx => Finset.mem_union_left _ hx
      · rw [if_neg hb]
    have hundef : stLe (undefAtEntry g none) (undefAtEntry g (some d)) :=
      fixIter_le_fixIter _ _ (undefStep_mono g (some d)) hstep
    have hsstep : ∀ s, stLe (sitesStep g none s) (sitesStep g (some d) s) := by
      intro s b x hx
      simp only [sitesStep, Finset.mem_union] at hx ⊢
      rcases hx with h | h
      · exact absurd h (Finset.not_mem_empty x)
      · exact Or.inr h
    have hsites : stLe (sitesAtEntry g none) (sitesAtEntry g (some d)) :=
      fixIter_le_fixIter _ _ (sitesStep_mono g (some d)) hsstep
    have hcount : ∀ b r0, siteCount g none b r0 ≤ siteCount g (some d) b r0 :=
      fun b r0 => Finset.card_le_card (Finset.filter_subset_filter _ (hsites b))
    have hep : epredsCard g none d.target ≤ epredsCard g (some d) d.target := by
      simp only [epredsCard]
      have hz : (0 : ℕ) ≤ if d.target = d.target then 1 else 0 := Nat.zero_le _
      omega
    intro r hr
    rw [phiRequired, Finset.mem_filter] at hr ⊢
    obtain ⟨hlive, hcard, hcond⟩ := hr
    refine ⟨hlive, le_trans hcard hep, ?_⟩
    rcases hcond with hx | ⟨hx, hu⟩
    · exact Or.inl (le_trans hx (hcount d.target r))
    · exact Or.inr ⟨le_trans hx (hcount d.target r), hundef d.target hu⟩
  · intro htgt hdu had
    have hstep : ∀ s, stLe (undefStep g (some d₂) s) (undefStep g (some d₁) s) := by
      intro s b
      simp only [undefStep, htgt]
      by_cases hb : b = d₁.target
      · rw [if_pos hb, if_pos hb]
        intro x hx
        simp only [Finset.mem_sdiff, Finset.mem_union] at hx ⊢
        obtain ⟨hx1, hx2⟩ := hx
        refine ⟨?_, fun hmem => hx2 (had hmem)⟩
        rcases hx1 with hx1 | hx1
        · exact Or.inl hx1
        · exact Or.inr (hdu hx1)
      · rw [if_neg hb, if_neg hb]
    exact fun b => fixIter_le_fixIter _ _ (undefStep_mono g (some d₁)) hstep b

theorem osr_superset_witness :
    phiRequired loopCFG none 1 ⊆ phiRequired loopCFG (some loopDescU) 1 ∧
    undefAtEntry loopCFG (some loopDesc) 1 ⊆ undefAtEntry loopCFG (some loopDescU) 1 :=
  ⟨(osr_superset_and_defined_monotone loopCFG loopDescU loopDescU loopDesc).1 (by decide),
   (osr_superset_and_defined_monotone loopCFG loopDescU loopDescU loopDesc).2
     (by decide) (by decide) (by decide) 1⟩

/-- Claim C3: in the loop-with-OSR scenario (loop header block 1 with the
forward predecessor 0 and the back-edge predecessor 2), the OSR
descriptor marking register `i` (register 0) supplied-and-defined makes
`i` not potentially undefined at the header entry, although natural mode
alone leaves it potentially undefined there; register `iter` (register 1),
not declared defined by the descriptor, keeps exactly its natural-mode
phi-required and potentially-undefined status at the header. -/
theorem osr_loop_scenario :
    natPreds loopCFG 1 = {0, 2} ∧
    (0 : Fin 2) ∈ undefAtEntry loopCFG none 1 ∧
    (0 : Fin 2) ∉ undefAtEntry loopCFG (some loopDesc) 1 ∧
    ((1 : Fin 2) ∈ phiRequired loopCFG (some loopDesc) 1 ↔
      (1 : Fin 2) ∈ phiRequired loopCFG none 1) ∧
    ((1 : Fin 2) ∈ undefAtEntry loopCFG (some loopDesc) 1 ↔
      (1 : Fin 2) ∈ undefAtEntry loopCFG none 1) := by
  decide

/-! ## Claim theorems: tuple operations -/

/-- Claim C8: tupleGetitemUnboxed first replaces a negative index by
size + index, raises IndexError ("tuple index out of range") exactly when
the adjusted index is still outside [0, size), and otherwise returns the
element at the adjusted index.  The tuple itself is read, never written. -/
theorem tupleGetitem_spec {α : Type} (self : List α) (n : ℤ) :
    (tupleGetitemUnboxed self n = Except.error "tuple index out of range" ↔
      (tupleAdjust self.length n < 0 ∨ (self.length : ℤ) ≤ tupleAdjust self.length n)) ∧
    ∀ h : 0 ≤ tupleAdjust self.length n ∧ tupleAdjust self.length n < (self.length : ℤ),
      tupleGetitemUnboxed self n =
        Except.ok (self.get ⟨(tupleAdjust self.length n).toNat, by omega⟩) := by
  unfold tupleGetitemUnboxed
  by_cases hc : 0 ≤ tupleAdjust self.length n ∧ tupleAdjust self.length n < (self.length : ℤ)
  · rw [dif_pos hc]
    constructor
    · constructor
      · intro he
        exact absurd he (by simp)
      · intro hor
        rcases hor with h | h <;> omega
    · intro h
      rfl
  · rw [dif_neg hc]
    constructor
    · constructor
      · intro _
        by_cases h0 : tupleAdjust self.length n < 0
        · exact Or.inl h0
        · refine Or.inr ?_
          by_contra hlt
          exact hc ⟨by omega, by omega⟩
      · intro _
        rfl
    · intro h
      exact absurd h hc

theorem tupleGetitem_witness :
    tupleGetitemUnboxed ([10, 20, 30] : List ℕ) (-1) = Except.ok 30 ∧
    tupleGetitemUnboxed ([10, 20, 30] : List ℕ) 3 =
      Except.error "tuple index out of range" := by
  constructor
  · have h := (tupleGetitem_spec ([10, 20, 30] : List ℕ) (-1)).2 (by decide)
    exact h.trans rfl
  · exact (tupleGetitem_spec ([10, 20, 30] : List ℕ) 3).1.mpr (by decide)

theorem clampNeg_eq_one (n : ℤ) : clampNeg n = 1 ↔ n = 1 := by
  unfold clampNeg
  split <;> omega

theorem clampNeg_toNat (n : ℤ) : (clampNeg n).toNat = n.toNat := by
  unfold clampNeg
  split <;> omega

/-- Claim C9, counterexample to the original statement: the boxed value
2^32 + 1 is not 1 and the tuple is not empty, yet tupleMul returns the
very same object rather than a fresh tuple, because the source narrows
the int64 payload to the 32-bit int 1 (tuple.cpp line 176) before
comparing against 1. -/
theorem tupleMul_counterexample :
    tupleMul ([0] : List ℕ) (PyVal.int (2 ^ 32 + 1)) = MulResult.same ∧
    (2 ^ 32 + 1 : ℤ) ≠ 1 ∧ ([0] : List ℕ) ≠ [] := by
  decide

/-- Claim C9, amended: tupleMul first narrows the boxed int64 multiplier
to a signed 32-bit int n32.  It returns the very same tuple object
exactly when the operand is a boxed int and the tuple is empty or n32
equals 1; for any other boxed int, when the clamped 32-bit product with
the size does not overflow, it returns a fresh tuple made of max(n32, 0)
consecutive copies of the elements, of length max(n32, 0) * size (so a
negative multiplier yields the empty tuple); a non-int right operand
raises TypeError. -/
theorem tupleMul_spec {α : Type} (self : List α) (rhs : PyVal α) :
    (tupleMul self rhs = MulResult.same ↔
      ∃ n, rhs = PyVal.int n ∧ (self = [] ∨ toInt32 n = 1)) ∧
    (∀ n : ℤ, rhs = PyVal.int n → self ≠ [] → toInt32 n ≠ 1 →
      (toInt32 n).toNat * self.length < 2 ^ 31 →
      tupleMul self rhs =
        MulResult.fresh (List.flatten (List.replicate (toInt32 n).toNat self)) ∧
      (List.flatten (List.replicate (toInt32 n).toNat self)).length =
        (toInt32 n).toNat * self.length) ∧
    ((∀ n, rhs ≠ PyVal.int n) → tupleMul self rhs = MulResult.typeError) := by
  refine ⟨?_, ?_, ?_⟩
  · constructor
    · intro h
      cases rhs with
      | int n0 =>
          refine ⟨n0, rfl, ?_⟩
          by_cases hcond : self.length = 0 ∨ clampNeg (toInt32 n0) = 1
          · rcases hcond with h1 | h1
            · exact Or.inl (List.length_eq_zero.mp h1)
            · exact Or.inr ((clampNeg_eq_one (toInt32 n0)).mp h1)
          · simp only [tupleMul] at h
            rw [if_neg hcond] at h
            exact absurd h (by simp)
      | tup l => exact absurd h (by simp [tupleMul])
      | other => exact absurd h (by simp [tupleMul])
    · rintro ⟨n, rfl, hor⟩
      have hcond : self.length = 0 ∨ clampNeg (toInt32 n) = 1 := by
        rcases hor with h1 | h1
        · exact Or.inl (by simp [h1])
        · exact Or.inr ((clampNeg_eq_one (toInt32 n)).mpr h1)
      simp only [tupleMul]
      rw [if_pos hcond]
  · rintro n rfl hne h1 _
    have hcond : ¬(self.length = 0 ∨ clampNeg (toInt32 n) = 1) := by
      rintro (h | h)
      · exact hne (List.length_eq_zero.mp h)
      · exact h1 ((clampNeg_eq_one (toInt32 n)).mp h)
    constructor
    · simp only [tupleMul]
      rw [if_neg hcond, clampNeg_toNat]
    · simp [List.length_flatten, List.map_replicate, List.sum_replicate]
  · intro h
    cases rhs with
    | int n0 => exact absurd rfl (h n0)
    | tup l => rfl
    | other => rfl

theorem tupleMul_witness :
    tupleMul ([1, 2] : List ℕ) (PyVal.int 1) = MulResult.same ∧
    tupleMul ([1, 2] : List ℕ) (PyVal.int 3) = MulResult.fresh [1, 2, 1, 2, 1, 2] ∧
    tupleMul ([1, 2] : List ℕ) PyVal.other = MulResult.typeError := by
  refine ⟨?_, ?_, ?_⟩
  · exact (tupleMul_spec ([1, 2] : List ℕ) (PyVal.int 1)).1.mpr ⟨1, rfl, Or.inr (by decide)⟩
  · have h := ((tupleMul_spec ([1, 2] : List ℕ) (PyVal.int 3)).2.1 3 rfl
      (by decide) (by decide) (by decide)).1
    exact h.trans (by decide)
  · exact (tupleMul_spec ([1, 2] : List ℕ) PyVal.other).2.2 fun n h => nomatch h

theorem lenCmp_succ (op : CmpOp) (l r : ℕ) :
    lenCmp op (l + 1) (r + 1) = lenCmp op l r := by
  cases op <;> simp only [lenCmp, decide_eq_decide] <;> omega

theorem tupleCmpRun_eq_iff {α : Type} (beq : α → α → Bool)
    (cmpe : CmpOp → α → α → Bool) (l : List α) :
    ∀ r : List α, tupleCmpRun beq cmpe CmpOp.eq l r = true ↔
      (l.length = r.length ∧ ∀ p ∈ l.zip r, beq p.1 p.2 = true) := by
  induction l with
  | nil =>
      intro r
      simp [tupleCmpRun, lenCmp]
  | cons x xs ih =>
      intro r
      cases r with
      | nil => simp [tupleCmpRun, lenCmp]
      | cons y ys =>
          simp only [tupleCmpRun, List.zip_cons_cons, List.mem_cons, List.length_cons]
          by_cases hb : beq x y = true
          · rw [if_pos hb, ih ys]
            constructor
            · rintro ⟨h1, h2⟩
              refine ⟨by omega, ?_⟩
              rintro p (rfl | hp)
              · exact hb
              · exact h2 p hp
            · rintro ⟨h1, h2⟩
              exact ⟨by omega, fun p hp => h2 p (Or.inr hp)⟩
          · rw [if_neg hb]
            constructor
            · intro h
              exact absurd h (by simp [cmpMismatch])
            · rintro ⟨h1, h2⟩
              exact absurd (h2 (x, y) (Or.inl rfl)) hb

theorem tupleCmpRun_order {α : Type} (beq : α → α → Bool)
    (cmpe : CmpOp → α → α → Bool) (op : CmpOp) (hop : isOrderOp op = true)
    (l : List α) :
    ∀ r, tupleCmpRun beq cmpe op l r = specLexCmp beq cmpe op l r := by
  induction l with
  | nil => intro r; rfl
  | cons x xs ih =>
      intro r
      cases r with
      | nil => rfl
      | cons y ys =>
          simp only [tupleCmpRun, specLexCmp, firstDiff]
          by_cases hb : beq x y = true
          · rw [if_pos hb, if_pos hb, ih ys]
            simp only [specLexCmp]
            cases hfd : firstDiff beq xs ys with
            | some p =>
                obtain ⟨a, b⟩ := p
                rfl
            | none =>
                simp only [List.length_cons]
                rw [lenCmp_succ]
          · rw [if_neg hb, if_neg hb]
            cases op with
            | lt => rfl
            | le => rfl
            | gt => rfl
            | ge => rfl
            | eq => simp [isOrderOp] at hop
            | ne => simp [isOrderOp] at hop

/-- Claim C10: tupleEq answers true exactly when both tuples have equal
length and every corresponding pair of elements compares equal; the order
comparisons of _tupleCmp are lexicographic, decided by the first position
where elements differ and falling back to the length comparison when one
tuple is a prefix of the other; every comparison entry point answers
NotImplemented on a non-tuple right operand. -/
theorem tupleCmp_spec {α : Type} (beq : α → α → Bool)
    (cmpe : CmpOp → α → α → Bool) (self rhs : List α) (v : PyVal α) :
    (tupleEq beq cmpe self (PyVal.tup rhs) = some true ↔
      (self.length = rhs.length ∧ ∀ p ∈ self.zip rhs, beq p.1 p.2 = true)) ∧
    (∀ op, isOrderOp op = true →
      tupleCmpRun beq cmpe op self rhs = specLexCmp beq cmpe op self rhs) ∧
    ((∀ l, v ≠ PyVal.tup l) →
      tupleLt beq cmpe self v = none ∧ tupleLe beq cmpe self v = none ∧
      tupleGt beq cmpe self v = none ∧ tupleGe beq cmpe self v = none ∧
      tupleEq beq cmpe self v = none ∧ tupleNe beq cmpe self v = none) := by
  refine ⟨?_, ?_, ?_⟩
  · simpa [tupleEq, tupleCmpBox] using tupleCmpRun_eq_iff beq cmpe self rhs
  · intro op hop
    exact tupleCmpRun_order beq cmpe op hop self rhs
  · intro h
    cases v with
    | int n => exact ⟨rfl, rfl, rfl, rfl, rfl, rfl⟩
    | tup l => exact absurd rfl (h l)
    | other => exact ⟨rfl, rfl, rfl, rfl, rfl, rfl⟩

theorem tupleCmp_witness :
    tupleCmpRun (fun a b : ℕ => a == b) lenCmp CmpOp.lt [1, 2] [1, 3] =
      specLexCmp (fun a b : ℕ => a == b) lenCmp CmpOp.lt [1, 2] [1, 3] ∧
    tupleLt (fun a b : ℕ => a == b) lenCmp [1, 2] PyVal.other = none :=
  ⟨(tupleCmp_spec (fun a b : ℕ => a == b) lenCmp [1, 2] [1, 3] PyVal.other).2.1
      CmpOp.lt (by decide),
   ((tupleCmp_spec (fun a b : ℕ => a == b) lenCmp [1, 2] [1, 3] PyVal.other).2.2
      fun l h => nomatch h).1⟩

end Pyston

